import Mathlib

/-!
# Expense tracker (`script.js`): a shallow embedding and its properties

The script keeps one global array `expenses`, mirrors it into the browser's
local storage under the key `'expenses'` and into the page on every change.
The embedding below passes that state explicitly:

* JavaScript numbers are IEEE-754 binary64 values: `JSNumber`;
* JavaScript strings are Lean strings (sequences of Unicode scalar values);
  where the script orders strings, the UTF-16 code units are compared, as
  `Array.prototype.sort` does;
* the page state read and written by the functions is `Page`;
* readings of the environment (the clock, the form fields, the filter
  drop-down, what `JSON.parse` and `JSON.stringify` return, what
  `querySelector` does with an id that is not plain) are arguments.
-/

set_option exponentiation.threshold 4096

namespace ExpenseTracker

/-! ## Numbers -/

/-- A JavaScript Number. Every finite binary64 value is an integer multiple of
`2^-1074`; `fin k` is the value `k * 2^-1074`. The two zeros are identified
(no operation of the script tells them apart). -/
inductive JSNumber where
  | nan
  | posInf
  | negInf
  | fin (k : Int)
deriving DecidableEq

/-- Auxiliary recursion for `bitLength`. -/
def bitLengthAux : Nat → Nat → Nat
  | 0, _ => 0
  | fuel + 1, n => if n = 0 then 0 else bitLengthAux fuel (n / 2) + 1

/-- Number of binary digits of `n` (`0` for `0`). -/
def bitLength (n : Nat) : Nat := bitLengthAux n n

/-- Round a magnitude (in units of `2^-1074`) to 53 significant bits, ties to
even: the binary64 rounding of an exact sum. Magnitudes below `2^53` units
(in particular all subnormals) are kept as they are. -/
def roundMag (n : Nat) : Nat :=
  let e := bitLength n - 53
  let q := n / 2 ^ e
  let r := n % 2 ^ e
  if 2 * r < 2 ^ e ∨ (2 * r = 2 ^ e ∧ q % 2 = 0) then q * 2 ^ e else (q + 1) * 2 ^ e

/-- The binary64 value of an exact result `s * 2^-1074`: rounded to nearest,
ties to even, overflowing to an infinity from `2^1024` on. -/
def JSNumber.ofExact (s : Int) : JSNumber :=
  let m := roundMag s.natAbs
  if 2 ^ 2098 ≤ m then (if s < 0 then .negInf else .posInf)
  else .fin (if s < 0 then -(m : Int) else (m : Int))

/-- The `+` of two Numbers. -/
def JSNumber.add : JSNumber → JSNumber → JSNumber
  | .nan, _ => .nan
  | _, .nan => .nan
  | .posInf, .negInf => .nan
  | .negInf, .posInf => .nan
  | .posInf, _ => .posInf
  | _, .posInf => .posInf
  | .negInf, _ => .negInf
  | _, .negInf => .negInf
  | .fin a, .fin b => JSNumber.ofExact (a + b)

/-- The global `isNaN` on a Number. -/
def JSNumber.isNaN : JSNumber → Bool
  | .nan => true
  | _ => false

/-- The comparison `x <= 0`. -/
def JSNumber.leZero : JSNumber → Bool
  | .nan => false
  | .posInf => false
  | .negInf => true
  | .fin k => decide (k ≤ 0)

/-- The comparison `x > 0`. -/
def JSNumber.gtZero : JSNumber → Bool
  | .nan => false
  | .posInf => true
  | .negInf => false
  | .fin k => decide (0 < k)

/-- The Number `m * 2^e` for a binary exponent `e ≥ -1074`, written with
`s = e + 1074`: `dyadic m s` is `m * 2^(s - 1074)`. -/
def dyadic (m : Int) (s : Nat) : JSNumber := .fin (m * ((2 ^ s : Nat) : Int))

/-- Whether a Number is a finite, non-negative multiple of `2^(s - 1074)`. -/
def JSNumber.isMultiple (s : Nat) : JSNumber → Bool
  | .fin k => decide (0 ≤ k) && decide (k.toNat % 2 ^ s = 0)
  | _ => false

/-- Magnitude of a finite non-negative Number in units of `2^-1074`
(`0` for every other Number). -/
def JSNumber.units : JSNumber → Nat
  | .fin k => k.toNat
  | _ => 0

/-! ## Strings -/

/-- The code points `String.prototype.trim` strips: WhiteSpace and
LineTerminator of the ECMAScript grammar. -/
def isStripped (c : Char) : Bool :=
  let n := c.toNat
  n = 0x09 || n = 0x0A || n = 0x0B || n = 0x0C || n = 0x0D || n = 0x20 || n = 0xA0 ||
  n = 0x1680 || (0x2000 ≤ n && n ≤ 0x200A) || n = 0x2028 || n = 0x2029 || n = 0x202F ||
  n = 0x205F || n = 0x3000 || n = 0xFEFF

/-- The method `trim`. -/
def trim (s : String) : String :=
  ⟨((s.data.dropWhile isStripped).reverse.dropWhile isStripped).reverse⟩

/-- UTF-16 code units of one character. -/
def utf16Units (c : Char) : List Nat :=
  if c.toNat < 0x10000 then [c.toNat]
  else [0xD800 + (c.toNat - 0x10000) / 0x400, 0xDC00 + (c.toNat - 0x10000) % 0x400]

/-- UTF-16 code units of a string: what JavaScript compares. -/
def utf16 (s : String) : List Nat := s.data.flatMap utf16Units

/-- Whether one sequence of code units is not after another, as ECMAScript
compares strings: the first differing unit decides, and a proper prefix comes
first. -/
def codeUnitsLe : List Nat → List Nat → Bool
  | [], _ => true
  | _ :: _, [] => false
  | a :: as, b :: bs => decide (a < b) || (decide (a = b) && codeUnitsLe as bs)

/-- The order of the default `sort` comparator: `a` is not after `b`. -/
def jsLe (a b : String) : Prop := codeUnitsLe (utf16 a) (utf16 b) = true

instance : DecidableRel jsLe :=
  fun a b => inferInstanceAs (Decidable (codeUnitsLe (utf16 a) (utf16 b) = true))

/-- Strictly before, in the order of the default `sort` comparator. -/
def jsLt (a b : String) : Prop := codeUnitsLe (utf16 b) (utf16 a) = false

instance : DecidableRel jsLt :=
  fun a b => inferInstanceAs (Decidable (codeUnitsLe (utf16 b) (utf16 a) = false))

/-! ## Records and aggregation -/

/-- One element of the `expenses` array, as `addExpense` builds it. -/
structure Expense where
  id : String
  title : String
  amount : JSNumber
  category : String
  date : String
deriving DecidableEq

/-- The sum `updateTotals` computes:
`expenses.reduce((sum, expense) => sum + expense.amount, 0)`. -/
def totalAmount (expenses : List Expense) : JSNumber :=
  expenses.foldl (fun sum expense => sum.add expense.amount) (.fin 0)

/-- The count `updateTotals` computes: `expenses.length`. -/
def transactionCount (expenses : List Expense) : Nat := expenses.length

/-- The values that occur while `renderCategorySummary` groups the amounts.
`string` is a non-empty string whose characters are not tracked, `object` a
function or object inherited from `Object.prototype`. -/
inductive JSValue where
  | undefined
  | number (x : JSNumber)
  | string
  | object
deriving DecidableEq

/-- Truthiness (`ToBoolean`). -/
def JSValue.truthy : JSValue → Bool
  | .undefined => false
  | .number .nan => false
  | .number (.fin k) => decide (k ≠ 0)
  | _ => true

/-- The expression `v || 0`. -/
def JSValue.orZero (v : JSValue) : JSValue :=
  if v.truthy then v else .number (.fin 0)

/-- The operator `+`: numeric addition of Numbers (`undefined` converts to
NaN); with a string, function or object operand the result is a string
concatenation, never empty here. -/
def JSValue.add : JSValue → JSValue → JSValue
  | .number a, .number b => .number (a.add b)
  | .number _, .undefined => .number .nan
  | .undefined, .number _ => .number .nan
  | .undefined, .undefined => .number .nan
  | _, _ => .string

/-- Property names that every plain object inherits from `Object.prototype`. -/
def inheritedNames : List String :=
  ["constructor", "__defineGetter__", "__defineSetter__", "hasOwnProperty",
   "__lookupGetter__", "__lookupSetter__", "isPrototypeOf", "propertyIsEnumerable",
   "toString", "valueOf", "__proto__", "toLocaleString"]

/-- A plain object made by a literal: its own properties in creation order. -/
abbrev PlainObject := List (String × JSValue)

/-- Property read `o[key]`: an own property, else what `Object.prototype`
provides, else `undefined`. -/
def PlainObject.get (o : PlainObject) (key : String) : JSValue :=
  match o.lookup key with
  | some v => v
  | none => if key ∈ inheritedNames then .object else .undefined

/-- Replace the value of an own property, or append the property. -/
def setOwn : PlainObject → String → JSValue → PlainObject
  | [], key, v => [(key, v)]
  | (k, w) :: rest, key, v =>
    if k = key then (k, v) :: rest else (k, w) :: setOwn rest key v

/-- Property write `o[key] = v` of a Number or string `v`. The name
`__proto__` is an accessor of `Object.prototype` whose setter ignores such
values, so no own property is made for it. -/
def PlainObject.set (o : PlainObject) (key : String) (v : JSValue) : PlainObject :=
  if key = "__proto__" then o else setOwn o key v

/-- The callback of the `reduce` in `renderCategorySummary`:
`acc[expense.category] = (acc[expense.category] || 0) + expense.amount`. -/
def summaryStep (acc : PlainObject) (expense : Expense) : PlainObject :=
  acc.set expense.category (((acc.get expense.category).orZero).add (.number expense.amount))

/-- The object `summary` of `renderCategorySummary`: the `reduce` of
`summaryStep` over the ledger, from an empty object literal. -/
def summary (expenses : List Expense) : PlainObject :=
  expenses.foldl summaryStep []

/-- The call `Object.keys`: own property names. (Names that are array
indices are listed first by an engine; the `sort` that follows erases the
order, see `categoryNames_of_keys_perm`.) -/
def objectKeys (o : PlainObject) : List String := o.map Prod.fst

/-- The array `categoryNames`: `Object.keys(summary).sort()`. -/
def categoryNames (expenses : List Expense) : List String :=
  (objectKeys (summary expenses)).insertionSort jsLe

/-- The rows `renderCategorySummary` appends: each category name with
`summary[category]`. -/
def summaryRows (expenses : List Expense) : List (String × JSValue) :=
  (categoryNames expenses).map (fun category => (category, (summary expenses).get category))

/-- Sum of the subtotals, taken as `updateTotals` takes its sum: by `+` from
`0`, over the rows in display order. -/
def subtotalsSum (expenses : List Expense) : JSValue :=
  (summaryRows expenses).foldl (fun sum row => sum.add row.2) (.number (.fin 0))

/-- Exact sum of the amounts of a ledger, in units of `2^-1074` (see
`JSNumber.units`). -/
def ledgerUnits (expenses : List Expense) : Nat :=
  (expenses.map (fun e => e.amount.units)).sum

/-- Exact sum of the amounts of the records of one category, in units of
`2^-1074`. -/
def categoryUnits (expenses : List Expense) (category : String) : Nat :=
  ledgerUnits (expenses.filter (fun e => decide (e.category = category)))

/-- The array `filteredExpenses` of `renderExpenses`:
`expenses.filter(expense => filter === 'All' || expense.category === filter)`. -/
def filteredExpenses (expenses : List Expense) (filter : String) : List Expense :=
  expenses.filter (fun expense => decide (filter = "All") || decide (expense.category = filter))

/-! ## The page and the functions that change it -/

/-- Errors the script can raise. -/
inductive JSError where
  /-- a TypeError -/
  | typeError
  /-- a SyntaxError of the language, as `JSON.parse` raises -/
  | syntaxError
  /-- a DOMException, as `querySelector` raises for a selector that does not parse -/
  | domException
deriving DecidableEq

/-- The state the script's functions read and write. -/
structure Page where
  /-- the global array `expenses` (the ledger) -/
  expenses : List Expense
  /-- the local-storage item `'expenses'`, if there is one -/
  storage : Option String
  /-- the `data-id` of each `li.expense-item` of `#expense-list`, in order -/
  items : List String
  /-- the amount last passed to `formatAmount` for `#total` -/
  shownTotal : Option JSNumber
  /-- the number last written to `#transaction-count` -/
  shownCount : Option Nat
  /-- the rows last written to `#category-summary` -/
  shownSummary : Option (List (String × JSValue))
  /-- the ids held by the pending `setTimeout` callbacks, oldest first -/
  timers : List String
  /-- the messages shown by `alert`, latest first -/
  alerts : List String
deriving DecidableEq

/-- The function `saveExpenses`; `stringify` is `JSON.stringify`. -/
def saveExpenses (stringify : List Expense → String) (p : Page) : Page :=
  { p with storage := some (stringify p.expenses) }

/-- The function `updateTotals`. -/
def updateTotals (p : Page) : Page :=
  { p with shownTotal := some (totalAmount p.expenses),
           shownCount := some (transactionCount p.expenses) }

/-- The function `renderCategorySummary`. -/
def renderCategorySummary (p : Page) : Page :=
  if (categoryNames p.expenses).length = 0 then { p with shownSummary := some [] }
  else { p with shownSummary := some (summaryRows p.expenses) }

/-- The function `renderExpenses`; `filter` is the value of `#filter-category`
when it runs. With nothing to list it returns before the totals and the
category summary are written. -/
def renderExpenses (p : Page) (filter : String) : Page :=
  let filtered := filteredExpenses p.expenses filter
  if filtered.length = 0 then { p with items := [] }
  else renderCategorySummary (updateTotals { p with items := filtered.map (fun e => e.id) })

/-- What one call of `addExpense` reads from the page and the clock. -/
structure AddInput where
  /-- the value of the field `#title` -/
  title : String
  /-- the Number `parseFloat` makes of the value of the field `#amount` -/
  amount : JSNumber
  /-- the value of the drop-down `#category` -/
  category : String
  /-- the milliseconds `Date.now()` returns -/
  now : Nat
  /-- the string `new Date().toISOString()` returns -/
  date : String
  /-- the value of `#filter-category` when the list is rendered again -/
  filter : String
deriving DecidableEq

/-- The message of the first `alert` in `addExpense`. -/
def titleAlert : String := "Please enter a valid expense title and select a category."

/-- The message of the second `alert` in `addExpense`. -/
def amountAlert : String := "Please enter a valid, positive amount."

/-- The record `addExpense` builds from valid input. -/
def newExpense (i : AddInput) : Expense :=
  { id := toString i.now, title := trim i.title, amount := i.amount,
    category := i.category, date := i.date }

/-- The function `addExpense`. -/
def addExpense (stringify : List Expense → String) (p : Page) (i : AddInput) : Page :=
  let title := trim i.title
  let amount := i.amount
  let category := i.category
  if title = "" ∨ category = "" then
    { p with alerts := titleAlert :: p.alerts }
  else if amount.isNaN || amount.leZero then
    { p with alerts := amountAlert :: p.alerts }
  else
    renderExpenses (saveExpenses stringify { p with expenses := newExpense i :: p.expenses })
      i.filter

/-- What `querySelector` can do with a selector. -/
inductive SelectorOutcome where
  /-- the selector does not parse: a DOMException is raised -/
  | invalid
  /-- no element matches: `null` is returned -/
  | null
  /-- an element matches and is returned -/
  | element
deriving DecidableEq

/-- Whether an id stands for itself between the double quotes of a selector:
it has no double quote, no backslash, no line feed, carriage return or form
feed and no U+0000. -/
def plainId (expenseId : String) : Bool :=
  expenseId.data.all (fun c =>
    !(c.toNat = 0x22 || c.toNat = 0x5C || c.toNat = 0x0A || c.toNat = 0x0D ||
      c.toNat = 0x0C || c.toNat = 0x00))

/-- The call `document.querySelector` of `deleteExpense`, whose selector is
the id spliced between `.expense-item[data-id="` and `"]`. For a plain id the
selector matches the elements of class `expense-item` whose `data-id` is the
id, and these are the list items. For any other id the text between the
quotes is not the id (the selector may not parse, or may match other
elements); what the browser then does is the reading `other`. -/
def querySelector (items : List String) (expenseId : String) (other : SelectorOutcome) :
    SelectorOutcome :=
  if plainId expenseId then (if expenseId ∈ items then .element else .null) else other

/-- The function `deleteExpense` up to its `setTimeout`: a selector that does
not parse raises a DOMException, reading `classList` of `null` raises a
TypeError, and otherwise the removal is scheduled. `other` is what
`querySelector` does when the id is not plain (see `querySelector`). -/
def deleteExpense (p : Page) (expenseId : String) (other : SelectorOutcome) :
    Except JSError Page :=
  match querySelector p.items expenseId other with
  | .invalid => .error .domException
  | .null => .error .typeError
  | .element => .ok { p with timers := p.timers ++ [expenseId] }

/-- The callback `deleteExpense` hands to `setTimeout`, run for `expenseId`;
`filter` is the value of `#filter-category` at that moment. -/
def deleteExpenseTimeout (stringify : List Expense → String) (p : Page)
    (expenseId : String) (filter : String) : Page :=
  renderExpenses
    (saveExpenses stringify
      { p with expenses := p.expenses.filter (fun e => decide (e.id ≠ expenseId)) })
    filter

/-- What can happen to the page. -/
inductive Event where
  /-- a call of `addExpense` -/
  | add (i : AddInput)
  /-- a call of `deleteExpense`; `other` is what `querySelector` does when the
  id is not plain -/
  | delete (expenseId : String) (other : SelectorOutcome)
  /-- the oldest pending `setTimeout` callback runs (all delays are equal) -/
  | timeout (filter : String)
deriving DecidableEq

/-- One event. An error raised by `deleteExpense` ends that call and leaves
the page as it was. -/
def step (stringify : List Expense → String) (p : Page) : Event → Page
  | .add i => addExpense stringify p i
  | .delete expenseId other =>
    match deleteExpense p expenseId other with
    | .ok p1 => p1
    | .error _ => p
  | .timeout filter =>
    match p.timers with
    | [] => p
    | expenseId :: rest => deleteExpenseTimeout stringify { p with timers := rest } expenseId filter

/-- A sequence of events, in order. -/
def run (stringify : List Expense → String) (p : Page) (events : List Event) : Page :=
  events.foldl (step stringify) p

/-- The page once the script has loaded with an empty ledger and
`DOMContentLoaded` has rendered it. -/
def emptyPage (storage : Option String) : Page :=
  { expenses := [], storage := storage, items := [], shownTotal := none, shownCount := none,
    shownSummary := none, timers := [], alerts := [] }

/-! ## Initialization -/

/-- A JSON value as far as line 2 of the script depends on it. -/
inductive JsonValue where
  /-- one of `null`, `false`, `0`, `""` -/
  | falsy
  /-- an array of records -/
  | records (expenses : List Expense)
  /-- any other value -/
  | other
deriving DecidableEq

/-- Line 2: `let expenses = JSON.parse(localStorage.getItem('expenses')) || [];`.
`item` is what `getItem` finds (`none` for `null`), `jsonParse` is
`JSON.parse` on strings, raising a SyntaxError for text that is not JSON.
A `null` argument is first converted to the string `null`. -/
def initExpenses (item : Option String) (jsonParse : String → Except JSError JsonValue) :
    Except JSError JsonValue :=
  match jsonParse (item.getD "null") with
  | .error e => .error e
  | .ok .falsy => .ok (.records [])
  | .ok v => .ok v

/-! ## Sample inputs -/

/-- A stand-in for `JSON.stringify` where an example needs one: the ids, in
order. The theorems hold for every function in its place. -/
def sampleStringify (expenses : List Expense) : String :=
  ",".intercalate (expenses.map (fun e => e.id))

/-- The input "Coffee", 150.00, "Food" (the title typed with blanks around). -/
def coffee : AddInput :=
  { title := " Coffee ", amount := dyadic 150 1074, category := "Food",
    now := 1700000000000, date := "2023-11-14T22:13:20.000Z", filter := "All" }

/-- The input "Bus", 40.50, "Transport", entered within the same millisecond. -/
def bus : AddInput :=
  { title := "Bus", amount := dyadic 81 1073, category := "Transport",
    now := 1700000000000, date := "2023-11-14T22:13:20.000Z", filter := "All" }

/-- The ledger after `coffee` and `bus` were added one millisecond apart. -/
def coffeeBus : List Expense :=
  [{ id := "1700000000001", title := "Bus", amount := dyadic 81 1073,
     category := "Transport", date := "2023-11-14T22:13:20.001Z" },
   { id := "1700000000000", title := "Coffee", amount := dyadic 150 1074,
     category := "Food", date := "2023-11-14T22:13:20.000Z" }]

/-- A reading for `querySelector` to pass along with a plain id, where it is
not consulted. -/
def notConsulted : SelectorOutcome := .invalid

/-- The page after `coffee` alone was added to the empty page. -/
def coffeeOnly : Page :=
  run sampleStringify (emptyPage none) [.add coffee]

/-- The page after `coffee` and `bus` were added within the same millisecond. -/
def sameMillisecond : Page :=
  run sampleStringify (emptyPage none) [.add coffee, .add bus]

/-- A stand-in for `JSON.parse` where an example needs one: right on the
texts `null` and `[]` and on every text that is not JSON (a SyntaxError);
not meant for other JSON texts. -/
def sampleJsonParse (text : String) : Except JSError JsonValue :=
  if text = "null" then .ok .falsy
  else if text = "[]" then .ok (.records [])
  else .error .syntaxError

/-- A ledger of three records with the amounts 0.1 (Food), 0.2 (Transport)
and 0.4 (Food): as binary64 values `3602879701896397 * 2^-55`,
`3602879701896397 * 2^-54` and `3602879701896397 * 2^-53`. -/
def tenths : List Expense :=
  [{ id := "1700000000002", title := "Tea", amount := dyadic 3602879701896397 1019,
     category := "Food", date := "2023-11-14T22:13:20.002Z" },
   { id := "1700000000001", title := "Bus", amount := dyadic 3602879701896397 1020,
     category := "Transport", date := "2023-11-14T22:13:20.001Z" },
   { id := "1700000000000", title := "Bun", amount := dyadic 3602879701896397 1021,
     category := "Food", date := "2023-11-14T22:13:20.000Z" }]

/-- A ledger of one record whose category is the name `__proto__`. -/
def protoLedger : List Expense :=
  [{ id := "1700000000000", title := "Tea", amount := dyadic 5 1074,
     category := "__proto__", date := "2023-11-14T22:13:20.000Z" }]

/-- A ledger of one record whose category is the name `constructor`. -/
def constructorLedger : List Expense :=
  [{ id := "1700000000000", title := "Tea", amount := dyadic 5 1074,
     category := "constructor", date := "2023-11-14T22:13:20.000Z" }]

/-! # Theorems -/

/-! ## Frame lemmas -/

theorem renderExpenses_expenses (p : Page) (filter : String) :
    (renderExpenses p filter).expenses = p.expenses := by
  simp only [renderExpenses, renderCategorySummary, updateTotals]
  split_ifs <;> rfl

theorem renderExpenses_storage (p : Page) (filter : String) :
    (renderExpenses p filter).storage = p.storage := by
  simp only [renderExpenses, renderCategorySummary, updateTotals]
  split_ifs <;> rfl

theorem renderExpenses_alerts (p : Page) (filter : String) :
    (renderExpenses p filter).alerts = p.alerts := by
  simp only [renderExpenses, renderCategorySummary, updateTotals]
  split_ifs <;> rfl

theorem renderExpenses_timers (p : Page) (filter : String) :
    (renderExpenses p filter).timers = p.timers := by
  simp only [renderExpenses, renderCategorySummary, updateTotals]
  split_ifs <;> rfl

theorem gtZero_not_rejected {x : JSNumber} (h : x.gtZero = true) :
    (x.isNaN || x.leZero) = false := by
  cases x <;> simp_all [JSNumber.gtZero, JSNumber.isNaN, JSNumber.leZero]

theorem addExpense_of_valid (stringify : List Expense → String) (p : Page) (i : AddInput)
    (htitle : trim i.title ≠ "") (hcat : i.category ≠ "") (hamt : i.amount.gtZero = true) :
    addExpense stringify p i =
      renderExpenses (saveExpenses stringify { p with expenses := newExpense i :: p.expenses })
        i.filter := by
  simp [addExpense, htitle, hcat, gtZero_not_rejected hamt]

/-- C1. For every page and every valid input (title not empty once trimmed,
category not empty, amount a Number above zero), `addExpense` puts the new
record (trimmed title, parsed amount, chosen category) at index 0, keeps the
old ledger behind it in its old order, and the count grows by exactly one; the
new ledger is what is persisted and no alert is shown. -/
theorem addExpense_valid (stringify : List Expense → String) (p : Page) (i : AddInput)
    (htitle : trim i.title ≠ "") (hcat : i.category ≠ "") (hamt : i.amount.gtZero = true) :
    (addExpense stringify p i).expenses[0]? =
        some { id := toString i.now, title := trim i.title, amount := i.amount,
               category := i.category, date := i.date } ∧
      (addExpense stringify p i).expenses.tail = p.expenses ∧
      transactionCount (addExpense stringify p i).expenses = transactionCount p.expenses + 1 ∧
      (addExpense stringify p i).storage = some (stringify (addExpense stringify p i).expenses) ∧
      (addExpense stringify p i).alerts = p.alerts := by
  rw [addExpense_of_valid stringify p i htitle hcat hamt]
  simp [renderExpenses_expenses, renderExpenses_storage, renderExpenses_alerts, saveExpenses,
    newExpense, transactionCount]

/-- The statement of `addExpense_valid` at the input `coffee` on the empty page. -/
theorem addExpense_valid_witness :
    trim coffee.title ≠ "" ∧ coffee.category ≠ "" ∧ coffee.amount.gtZero = true ∧
      (addExpense sampleStringify (emptyPage none) coffee).expenses[0]? =
        some { id := "1700000000000", title := "Coffee", amount := dyadic 150 1074,
               category := "Food", date := "2023-11-14T22:13:20.000Z" } ∧
      (addExpense sampleStringify (emptyPage none) coffee).expenses.tail = [] ∧
      transactionCount (addExpense sampleStringify (emptyPage none) coffee).expenses = 0 + 1 ∧
      (addExpense sampleStringify (emptyPage none) coffee).storage =
        some (sampleStringify (addExpense sampleStringify (emptyPage none) coffee).expenses) ∧
      (addExpense sampleStringify (emptyPage none) coffee).alerts = [] :=
  ⟨by decide, by decide, by decide,
    addExpense_valid sampleStringify (emptyPage none) coffee (by decide) (by decide) (by decide)⟩

/-- C2. For every page, `addExpense` called with a title that is empty once
trimmed, an empty category, an amount that is not a number (NaN), a zero
amount or a negative amount shows a validation alert and changes nothing
else: the ledger and the persisted collection stay as they were. -/
theorem addExpense_invalid (stringify : List Expense → String) (p : Page) (i : AddInput)
    (h : trim i.title = "" ∨ i.category = "" ∨ i.amount = .nan ∨ i.amount = .fin 0 ∨
      (∃ k : Int, k < 0 ∧ i.amount = .fin k) ∨ i.amount = .negInf) :
    (∃ msg, (msg = titleAlert ∨ msg = amountAlert) ∧
        addExpense stringify p i = { p with alerts := msg :: p.alerts }) ∧
      (addExpense stringify p i).expenses = p.expenses ∧
      (addExpense stringify p i).storage = p.storage := by
  by_cases h1 : trim i.title = "" ∨ i.category = ""
  · simp [addExpense, h1]
  · have h2 : (i.amount.isNaN || i.amount.leZero) = true := by
      rcases h with h | h | h | h | ⟨k, hk, h⟩ | h
      · exact absurd (Or.inl h) h1
      · exact absurd (Or.inr h) h1
      · simp [h, JSNumber.isNaN]
      · simp [h, JSNumber.isNaN, JSNumber.leZero]
      · simp [h, JSNumber.isNaN, JSNumber.leZero, le_of_lt hk]
      · simp [h, JSNumber.isNaN, JSNumber.leZero]
    simp [addExpense, h1, h2]

/-- The statement of `addExpense_invalid` at a title of two blanks on the empty page. -/
theorem addExpense_invalid_witness :
    (trim "  " = "" ∨ coffee.category = "" ∨ coffee.amount = .nan ∨ coffee.amount = .fin 0 ∨
        (∃ k : Int, k < 0 ∧ coffee.amount = .fin k) ∨ coffee.amount = .negInf) ∧
      (addExpense sampleStringify (emptyPage none) { coffee with title := "  " }).alerts =
        [titleAlert] ∧
      (addExpense sampleStringify (emptyPage none) { coffee with title := "  " }).expenses = [] :=
  ⟨Or.inl (by decide), by decide,
    (addExpense_invalid sampleStringify (emptyPage none) { coffee with title := "  " }
      (Or.inl (by decide))).2.1⟩

theorem filter_ne_of_absent (l : List Expense) (expenseId : String)
    (h : ∀ e ∈ l, e.id ≠ expenseId) :
    l.filter (fun e => decide (e.id ≠ expenseId)) = l := by
  rw [List.filter_eq_self]
  intro e he
  simpa using h e he

theorem deleteExpenseTimeout_expenses (stringify : List Expense → String) (p : Page)
    (expenseId filter : String) :
    (deleteExpenseTimeout stringify p expenseId filter).expenses =
      p.expenses.filter (fun e => decide (e.id ≠ expenseId)) := by
  simp [deleteExpenseTimeout, renderExpenses_expenses, saveExpenses]

theorem deleteExpenseTimeout_storage (stringify : List Expense → String) (p : Page)
    (expenseId filter : String) :
    (deleteExpenseTimeout stringify p expenseId filter).storage =
      some (stringify (p.expenses.filter (fun e => decide (e.id ≠ expenseId)))) := by
  simp [deleteExpenseTimeout, renderExpenses_storage, saveExpenses]

theorem deleteExpense_cases (p : Page) (expenseId : String) (other : SelectorOutcome) :
    (∃ e, deleteExpense p expenseId other = .error e) ∨
      deleteExpense p expenseId other = .ok { p with timers := p.timers ++ [expenseId] } := by
  unfold deleteExpense
  cases querySelector p.items expenseId other
  · exact Or.inl ⟨_, rfl⟩
  · exact Or.inl ⟨_, rfl⟩
  · exact Or.inr rfl

theorem step_delete (stringify : List Expense → String) (p : Page) (expenseId : String)
    (other : SelectorOutcome) :
    step stringify p (.delete expenseId other) = p ∨
      step stringify p (.delete expenseId other) =
        { p with timers := p.timers ++ [expenseId] } := by
  rcases deleteExpense_cases p expenseId other with ⟨e, h⟩ | h
  · left; simp only [step, h]
  · right; simp only [step, h]

/-- C3, the claim as stated fails: on the freshly loaded page with an empty
ledger, `deleteExpense` of the plain id 1700000000000, which no record
carries, raises a TypeError (whatever is read for ids that are not plain). -/
theorem deleteExpense_absent_raises :
    plainId "1700000000000" = true ∧
      deleteExpense (emptyPage none) "1700000000000" .invalid = .error .typeError ∧
      deleteExpense (emptyPage none) "1700000000000" .null = .error .typeError ∧
      deleteExpense (emptyPage none) "1700000000000" .element = .error .typeError := by
  refine ⟨by decide, rfl, rfl, rfl⟩

/-- C3, amended. For every page and every id that no record of the ledger
carries: the removal that `deleteExpense` defers leaves the ledger as it is
(records, order, count) and raises nothing; and a call of `deleteExpense`
leaves the ledger as it is too, at the call and once the delay has elapsed,
whether the call raised an error or scheduled the removal. -/
theorem deleteExpense_absent (stringify : List Expense → String) (p : Page)
    (expenseId filter : String) (h : ∀ e ∈ p.expenses, e.id ≠ expenseId) :
    (deleteExpenseTimeout stringify p expenseId filter).expenses = p.expenses ∧
      transactionCount (deleteExpenseTimeout stringify p expenseId filter).expenses =
        transactionCount p.expenses ∧
      (∀ other, (step stringify p (.delete expenseId other)).expenses = p.expenses) ∧
      (∀ other, p.timers = [] →
        (run stringify p [.delete expenseId other, .timeout filter]).expenses = p.expenses) := by
  have hf := filter_ne_of_absent p.expenses expenseId h
  refine ⟨?_, ?_, ?_, ?_⟩
  · rw [deleteExpenseTimeout_expenses, hf]
  · rw [deleteExpenseTimeout_expenses, hf]
  · intro other
    rcases step_delete stringify p expenseId other with h1 | h1 <;> rw [h1]
  · intro other ht
    have hrun : run stringify p [.delete expenseId other, .timeout filter] =
        step stringify (step stringify p (.delete expenseId other)) (.timeout filter) := rfl
    rw [hrun]
    rcases step_delete stringify p expenseId other with h1 | h1 <;> rw [h1]
    · simp only [step, ht]
    · simp only [step, ht, List.nil_append, deleteExpenseTimeout_expenses]
      exact hf

/-- The statement of `deleteExpense_absent` at the ledger `coffeeBus` and an id it does not hold. -/
theorem deleteExpense_absent_witness :
    (∀ e ∈ coffeeBus, e.id ≠ "1600000000000") ∧
      (deleteExpenseTimeout sampleStringify { emptyPage none with expenses := coffeeBus }
        "1600000000000" "All").expenses = coffeeBus ∧
      (run sampleStringify { emptyPage none with expenses := coffeeBus }
        [.delete "1600000000000" .element, .timeout "All"]).expenses = coffeeBus :=
  ⟨by decide,
    (deleteExpense_absent sampleStringify { emptyPage none with expenses := coffeeBus }
      "1600000000000" "All" (by decide)).1,
    (deleteExpense_absent sampleStringify { emptyPage none with expenses := coffeeBus }
      "1600000000000" "All" (by decide)).2.2.2 .element rfl⟩

theorem filter_ne_of_count_one (l : List Expense) (expenseId : String)
    (h : l.countP (fun e => decide (e.id = expenseId)) = 1) :
    ∃ l1 r l2, l = l1 ++ r :: l2 ∧ r.id = expenseId ∧
      (∀ e ∈ l1 ++ l2, e.id ≠ expenseId) ∧
      l.filter (fun e => decide (e.id ≠ expenseId)) = l1 ++ l2 := by
  induction l with
  | nil => simp at h
  | cons a t ih =>
    by_cases ha : a.id = expenseId
    · have ht : t.countP (fun e => decide (e.id = expenseId)) = 0 := by
        simpa [List.countP_cons, ha] using h
      have habs : ∀ e ∈ t, e.id ≠ expenseId := by
        intro e he
        have := (List.countP_eq_zero.1 ht) e he
        simpa using this
      refine ⟨[], a, t, rfl, ha, habs, ?_⟩
      rw [List.filter_cons_of_neg (by simp [ha]), filter_ne_of_absent t expenseId habs]
      rfl
    · have ht : t.countP (fun e => decide (e.id = expenseId)) = 1 := by
        simpa [List.countP_cons, ha] using h
      obtain ⟨l1, r, l2, hl, hr, hne, hfil⟩ := ih ht
      refine ⟨a :: l1, r, l2, by simp [hl], hr, ?_, ?_⟩
      · intro e he
        rw [List.cons_append, List.mem_cons] at he
        rcases he with rfl | he
        · exact ha
        · exact hne e he
      · rw [List.filter_cons_of_pos (by simp [ha]), hfil]
        rfl

theorem renderExpenses_items (p : Page) (filter : String) :
    ∀ i ∈ (renderExpenses p filter).items, ∃ e ∈ p.expenses, e.id = i := by
  intro i hi
  simp only [renderExpenses, renderCategorySummary, updateTotals] at hi
  split_ifs at hi
  · simp at hi
  · simp at hi
    obtain ⟨e, he, rfl⟩ := hi
    exact ⟨e, (List.mem_filter.1 he).1, rfl⟩
  · simp at hi
    obtain ⟨e, he, rfl⟩ := hi
    exact ⟨e, (List.mem_filter.1 he).1, rfl⟩

theorem step_items (stringify : List Expense → String) (p : Page) (ev : Event)
    (h : ∀ i ∈ p.items, ∃ e ∈ p.expenses, e.id = i) :
    ∀ i ∈ (step stringify p ev).items, ∃ e ∈ (step stringify p ev).expenses, e.id = i := by
  cases ev with
  | add a =>
    simp only [step, addExpense]
    split_ifs
    · exact h
    · exact h
    · intro i hi
      rw [renderExpenses_expenses]
      exact renderExpenses_items _ _ i hi
  | delete expenseId other =>
    rcases step_delete stringify p expenseId other with h1 | h1 <;> rw [h1] <;> exact h
  | timeout filter =>
    cases ht : p.timers with
    | nil => simpa [step, ht] using h
    | cons expenseId rest =>
      simp only [step, ht, deleteExpenseTimeout]
      intro i hi
      rw [renderExpenses_expenses]
      exact renderExpenses_items _ _ i hi

/-- Every list item on the page belongs to a record of the ledger, from the
empty page on. -/
theorem run_items (stringify : List Expense → String) (events : List Event) :
    ∀ p : Page, (∀ i ∈ p.items, ∃ e ∈ p.expenses, e.id = i) →
      ∀ i ∈ (run stringify p events).items,
        ∃ e ∈ (run stringify p events).expenses, e.id = i := by
  induction events with
  | nil => intro p hp; simpa [run] using hp
  | cons ev rest ih =>
    intro p hp
    have : run stringify p (ev :: rest) = run stringify (step stringify p ev) rest := rfl
    rw [this]
    exact ih _ (step_items stringify p ev hp)

/-- On every page reached from the empty page, a call of `deleteExpense` with
a plain id that no record carries finds no list item and raises the
TypeError. -/
theorem deleteExpense_absent_reached (stringify : List Expense → String)
    (storage : Option String) (events : List Event) (expenseId : String)
    (other : SelectorOutcome) (hplain : plainId expenseId = true)
    (h : ∀ e ∈ (run stringify (emptyPage storage) events).expenses, e.id ≠ expenseId) :
    deleteExpense (run stringify (emptyPage storage) events) expenseId other =
      .error .typeError := by
  have hi := run_items stringify events (emptyPage storage) (by simp [emptyPage])
  have : expenseId ∉ (run stringify (emptyPage storage) events).items := by
    intro hmem
    obtain ⟨e, he, heq⟩ := hi expenseId hmem
    exact h e he heq
  simp [deleteExpense, querySelector, hplain, this]

/-- C4, the claim as stated fails: after two records were added within one
millisecond both carry the id 1700000000000, and deleting that id takes the
count from 2 to 0. -/
theorem deleteExpense_removes_both :
    (∃ e ∈ sameMillisecond.expenses, e.id = "1700000000000") ∧
      transactionCount sameMillisecond.expenses = 2 ∧
      transactionCount
        (run sampleStringify sameMillisecond
          [.delete "1700000000000" notConsulted, .timeout "All"]).expenses = 0 := by
  decide

/-- C4, amended. For every page whose ledger holds exactly one record with
the given id, the removal that `deleteExpense` defers takes out exactly that
record: no record with the id remains, the count is the old count less one,
all other records stay as they were and in their order, and the new ledger is
persisted. Until the removal runs, a call of `deleteExpense` that raises no
error leaves the ledger as it is and schedules the removal. -/
theorem deleteExpense_present (stringify : List Expense → String) (p : Page)
    (expenseId filter : String)
    (h : p.expenses.countP (fun e => decide (e.id = expenseId)) = 1) :
    (∃ l1 r l2, p.expenses = l1 ++ r :: l2 ∧ r.id = expenseId ∧
        (deleteExpenseTimeout stringify p expenseId filter).expenses = l1 ++ l2 ∧
        (deleteExpenseTimeout stringify p expenseId filter).storage =
          some (stringify (l1 ++ l2))) ∧
      (∀ e ∈ (deleteExpenseTimeout stringify p expenseId filter).expenses, e.id ≠ expenseId) ∧
      transactionCount (deleteExpenseTimeout stringify p expenseId filter).expenses + 1 =
        transactionCount p.expenses ∧
      (∀ other p1, deleteExpense p expenseId other = .ok p1 →
        p1.expenses = p.expenses ∧ p1.timers = p.timers ++ [expenseId]) := by
  obtain ⟨l1, r, l2, hl, hr, hne, hfil⟩ := filter_ne_of_count_one p.expenses expenseId h
  refine ⟨⟨l1, r, l2, hl, hr, ?_, ?_⟩, ?_, ?_, ?_⟩
  · rw [deleteExpenseTimeout_expenses, hfil]
  · rw [deleteExpenseTimeout_storage, hfil]
  · rw [deleteExpenseTimeout_expenses, hfil]
    exact hne
  · rw [deleteExpenseTimeout_expenses, hfil, hl]
    simp [transactionCount]
    omega
  · intro other p1 hp1
    rcases deleteExpense_cases p expenseId other with ⟨e, h1⟩ | h1
    · rw [h1] at hp1
      cases hp1
    · rw [h1] at hp1
      cases hp1
      exact ⟨rfl, rfl⟩

/-- The statement of `deleteExpense_present` at the ledger `coffeeBus` and the id of its older record. -/
theorem deleteExpense_present_witness :
    coffeeBus.countP (fun e => decide (e.id = "1700000000000")) = 1 ∧
      (deleteExpenseTimeout sampleStringify { emptyPage none with expenses := coffeeBus }
        "1700000000000" "All").expenses.map (fun e => e.title) = ["Bus"] ∧
      transactionCount
        (deleteExpenseTimeout sampleStringify { emptyPage none with expenses := coffeeBus }
          "1700000000000" "All").expenses + 1 = 2 :=
  ⟨by decide, by decide,
    (deleteExpense_present sampleStringify { emptyPage none with expenses := coffeeBus }
      "1700000000000" "All" (by decide)).2.2.1⟩

/-- C5, the claim as stated fails: with a stored text that is not JSON the
SyntaxError of `JSON.parse` ends the initialization; no ledger is set up. -/
theorem initExpenses_unparsable_raises :
    sampleJsonParse "expenses" = .error .syntaxError ∧
      initExpenses (some "expenses") sampleJsonParse = .error .syntaxError := by
  constructor <;> rfl

/-- C5, amended. On initialization: if the key `expenses` is absent (or holds
JSON text for `null`), the ledger is the empty collection and no error is
raised; if the stored text is not parsable, the error `JSON.parse` raises
leaves the initialization. -/
theorem initExpenses_absent_or_unparsable (jsonParse : String → Except JSError JsonValue)
    (hnull : jsonParse "null" = .ok .falsy) :
    initExpenses none jsonParse = .ok (.records []) ∧
      (∀ text, jsonParse text = .ok .falsy →
        initExpenses (some text) jsonParse = .ok (.records [])) ∧
      (∀ text e, jsonParse text = .error e → initExpenses (some text) jsonParse = .error e) := by
  refine ⟨?_, ?_, ?_⟩
  · simp [initExpenses, hnull]
  · intro text h
    simp [initExpenses, h]
  · intro text e h
    simp [initExpenses, h]

/-- The statement of `initExpenses_absent_or_unparsable` with no stored item. -/
theorem initExpenses_absent_or_unparsable_witness :
    sampleJsonParse "null" = .ok .falsy ∧
      initExpenses none sampleJsonParse = .ok (.records []) :=
  ⟨rfl, (initExpenses_absent_or_unparsable sampleJsonParse rfl).1⟩

/-- C6, the code breaks the claim: two valid entries added within the same
millisecond get the same id, whatever is used to persist them. -/
theorem addExpense_same_millisecond (stringify : List Expense → String) :
    (run stringify (emptyPage none) [.add coffee, .add bus]).expenses.map (fun e => e.id) =
        ["1700000000000", "1700000000000"] ∧
      ¬ ((run stringify (emptyPage none) [.add coffee, .add bus]).expenses.map
          (fun e => e.id)).Nodup := by
  have h : (run stringify (emptyPage none) [.add coffee, .add bus]).expenses.map
      (fun e => e.id) = ["1700000000000", "1700000000000"] := by
    have h1 : ∀ p : Page, addExpense stringify p coffee =
        renderExpenses (saveExpenses stringify { p with expenses := newExpense coffee :: p.expenses })
          coffee.filter :=
      fun p => addExpense_of_valid stringify p coffee (by decide) (by decide) (by decide)
    have h2 : ∀ p : Page, addExpense stringify p bus =
        renderExpenses (saveExpenses stringify { p with expenses := newExpense bus :: p.expenses })
          bus.filter :=
      fun p => addExpense_of_valid stringify p bus (by decide) (by decide) (by decide)
    simp only [run, List.foldl, step, h1, h2, renderExpenses_expenses, saveExpenses]
    decide
  rw [h]
  exact ⟨rfl, by decide⟩

/-- C8. For every ledger and selector, the filter of `renderExpenses` returns
the whole ledger, unchanged and in order, when the selector is "All";
otherwise every record it returns has the selected category, every record of
the ledger with that category is returned as often as the ledger holds it,
and the records returned keep their ledger order. -/
theorem filteredExpenses_spec (expenses : List Expense) (filter : String) :
    (filter = "All" → filteredExpenses expenses filter = expenses) ∧
      (filter ≠ "All" →
        (∀ e ∈ filteredExpenses expenses filter, e.category = filter) ∧
        (∀ e ∈ expenses, e.category = filter → e ∈ filteredExpenses expenses filter) ∧
        (∀ e, e.category = filter →
          (filteredExpenses expenses filter).count e = expenses.count e) ∧
        (filteredExpenses expenses filter).Sublist expenses) := by
  refine ⟨?_, ?_⟩
  · intro h
    simp [filteredExpenses, h]
  · intro h
    refine ⟨?_, ?_, ?_, ?_⟩
    · intro e he
      simpa [filteredExpenses, h] using (List.mem_filter.1 he).2
    · intro e he hc
      exact List.mem_filter.2 ⟨he, by simp [hc]⟩
    · intro e hc
      simp only [filteredExpenses]
      rw [List.count_filter]
      simp [hc]
    · exact List.filter_sublist _

theorem gtZero_of_not_rejected {x : JSNumber} (h : (x.isNaN || x.leZero) = false) :
    x.gtZero = true := by
  cases x <;> simp_all [JSNumber.gtZero, JSNumber.isNaN, JSNumber.leZero]

/-- What one event does to the ledger: nothing, or one new record with an
amount above zero is put in front of the whole old ledger, or the old ledger
is filtered by an id. -/
theorem step_expenses (stringify : List Expense → String) (p : Page) (ev : Event) :
    (step stringify p ev).expenses = p.expenses ∨
      (∃ i, ev = .add i ∧ i.amount.gtZero = true ∧
        (step stringify p ev).expenses = newExpense i :: p.expenses) ∨
      (∃ expenseId, (step stringify p ev).expenses =
        p.expenses.filter (fun e => decide (e.id ≠ expenseId))) := by
  cases ev with
  | add i =>
    by_cases h1 : trim i.title = "" ∨ i.category = ""
    · left; simp [step, addExpense, h1]
    · by_cases h2 : (i.amount.isNaN || i.amount.leZero) = true
      · left; simp [step, addExpense, h1, h2]
      · have h3 : (i.amount.isNaN || i.amount.leZero) = false := by simpa using h2
        right; left
        refine ⟨i, rfl, gtZero_of_not_rejected h3, ?_⟩
        simp [step, addExpense, h1, h3, renderExpenses_expenses, saveExpenses]
  | delete expenseId other =>
    left
    rcases step_delete stringify p expenseId other with h1 | h1 <;> rw [h1]
  | timeout filter =>
    cases ht : p.timers with
    | nil => left; simp [step, ht]
    | cons expenseId rest =>
      right; right
      exact ⟨expenseId, by simp [step, ht, deleteExpenseTimeout_expenses]⟩

theorem run_append (stringify : List Expense → String) (p : Page) (events : List Event)
    (ev : Event) :
    run stringify p (events ++ [ev]) = step stringify (run stringify p events) ev := by
  simp [run, List.foldl_append]

theorem run_amounts_positive (stringify : List Expense → String) (events : List Event) :
    ∀ p : Page, (∀ e ∈ p.expenses, e.amount.gtZero = true) →
      ∀ e ∈ (run stringify p events).expenses, e.amount.gtZero = true := by
  induction events with
  | nil => intro p hp; simpa [run] using hp
  | cons ev rest ih =>
    intro p hp
    have : run stringify p (ev :: rest) = run stringify (step stringify p ev) rest := rfl
    rw [this]
    apply ih
    intro e he
    rcases step_expenses stringify p ev with heq | ⟨i, _, hi, heq⟩ | ⟨expenseId, heq⟩
    · rw [heq] at he
      exact hp e he
    · rw [heq, List.mem_cons] at he
      rcases he with rfl | he
      · exact hi
      · exact hp e he
    · rw [heq] at he
      exact hp e (List.mem_filter.1 he).1

/-- C10. Starting from an empty ledger, after every sequence of calls of
`addExpense` and `deleteExpense` (and of the removals they defer) with
arbitrary inputs, every record of the ledger has an amount above zero; and
whatever event comes next, the ledger after it is the ledger before it as it
was, or that whole ledger with the one new record of a call of `addExpense`
in front, or that ledger with the records of one id filtered out: every
record already held is either dropped or kept with all its fields, so no
operation changes the amount of a record already in the ledger. -/
theorem ledger_amounts_positive (stringify : List Expense → String) (p : Page)
    (h : p.expenses = []) (events : List Event) :
    (∀ e ∈ (run stringify p events).expenses, e.amount.gtZero = true) ∧
      (∀ ev,
        (run stringify p (events ++ [ev])).expenses = (run stringify p events).expenses ∨
        (∃ i, ev = .add i ∧
          (run stringify p (events ++ [ev])).expenses =
            newExpense i :: (run stringify p events).expenses) ∨
        (∃ expenseId, (run stringify p (events ++ [ev])).expenses =
          (run stringify p events).expenses.filter (fun e => decide (e.id ≠ expenseId)))) := by
  refine ⟨run_amounts_positive stringify events p (by simp [h]), ?_⟩
  intro ev
  rw [run_append]
  rcases step_expenses stringify (run stringify p events) ev with
    heq | ⟨i, hev, _, heq⟩ | ⟨expenseId, heq⟩
  · exact Or.inl heq
  · exact Or.inr (Or.inl ⟨i, hev, heq⟩)
  · exact Or.inr (Or.inr ⟨expenseId, heq⟩)

/-- The statement of `ledger_amounts_positive` at a run from the empty page with a rejected amount in it. -/
theorem ledger_amounts_positive_witness :
    (emptyPage none).expenses = [] ∧
      (∀ e ∈ (run sampleStringify (emptyPage none)
          [.add coffee, .add { bus with amount := .fin 0 }, .delete "1700000000000" notConsulted,
            .timeout "All", .add bus]).expenses,
        e.amount.gtZero = true) ∧
      (run sampleStringify (emptyPage none)
          [.add coffee, .add { bus with amount := .fin 0 }, .delete "1700000000000" notConsulted,
            .timeout "All", .add bus]).expenses.map (fun e => e.title) = ["Bus"] :=
  ⟨rfl,
    (ledger_amounts_positive sampleStringify (emptyPage none) rfl
      [.add coffee, .add { bus with amount := .fin 0 }, .delete "1700000000000" notConsulted,
        .timeout "All", .add bus]).1,
    by decide⟩

/-- After the only record was deleted the ledger is empty, but `renderExpenses`
returned before `updateTotals` and `renderCategorySummary`: the page still
shows the count 1, the total 150 and the Food row. -/
theorem deleteExpense_last_keeps_totals :
    (run sampleStringify coffeeOnly [.delete "1700000000000" notConsulted, .timeout "All"]).expenses
        = [] ∧
      (run sampleStringify coffeeOnly [.delete "1700000000000" notConsulted, .timeout "All"]).shownCount
        = some 1 ∧
      (run sampleStringify coffeeOnly [.delete "1700000000000" notConsulted, .timeout "All"]).shownTotal
        = some (dyadic 150 1074) ∧
      (run sampleStringify coffeeOnly [.delete "1700000000000" notConsulted, .timeout "All"]).shownSummary
        = some [("Food", .number (dyadic 150 1074))] := by
  decide!

/-! ## The order of strings -/

theorem codeUnitsLe_total : ∀ x y : List Nat, codeUnitsLe x y = true ∨ codeUnitsLe y x = true
  | [], _ => Or.inl rfl
  | _ :: _, [] => Or.inr rfl
  | a :: as, b :: bs => by
    rcases Nat.lt_trichotomy a b with h | h | h
    · left; simp [codeUnitsLe, h]
    · subst h
      rcases codeUnitsLe_total as bs with h | h
      · left; simp [codeUnitsLe, h]
      · right; simp [codeUnitsLe, h]
    · right; simp [codeUnitsLe, h]

theorem codeUnitsLe_trans : ∀ x y z : List Nat,
    codeUnitsLe x y = true → codeUnitsLe y z = true → codeUnitsLe x z = true
  | [], _, _ => fun _ _ => rfl
  | _ :: _, [], _ => fun h _ => by simp [codeUnitsLe] at h
  | _ :: _, _ :: _, [] => fun _ h => by simp [codeUnitsLe] at h
  | a :: as, b :: bs, c :: cs => fun h1 h2 => by
    simp only [codeUnitsLe, Bool.or_eq_true, Bool.and_eq_true, decide_eq_true_eq] at h1 h2 ⊢
    rcases h1 with h1 | ⟨h1, h1'⟩ <;> rcases h2 with h2 | ⟨h2, h2'⟩
    · left; omega
    · left; omega
    · left; omega
    · right; exact ⟨by omega, codeUnitsLe_trans as bs cs h1' h2'⟩

theorem codeUnitsLe_antisymm : ∀ x y : List Nat,
    codeUnitsLe x y = true → codeUnitsLe y x = true → x = y
  | [], [] => fun _ _ => rfl
  | [], _ :: _ => fun _ h => by simp [codeUnitsLe] at h
  | _ :: _, [] => fun h _ => by simp [codeUnitsLe] at h
  | a :: as, b :: bs => fun h1 h2 => by
    simp only [codeUnitsLe, Bool.or_eq_true, Bool.and_eq_true, decide_eq_true_eq] at h1 h2
    rcases h1 with h1 | ⟨h1, h1'⟩ <;> rcases h2 with h2 | ⟨h2, h2'⟩
    · omega
    · omega
    · omega
    · rw [h1, codeUnitsLe_antisymm as bs h1' h2']

theorem char_toNat_valid (c : Char) : c.toNat < 0xD800 ∨ (0xDFFF < c.toNat ∧ c.toNat < 0x110000) :=
  c.valid

theorem char_eq_of_toNat_eq {c d : Char} (h : c.toNat = d.toNat) : c = d := by
  apply Char.ext
  exact UInt32.ext (by simpa [Char.toNat] using h)

theorem utf16Units_append_inj (c d : Char) (r1 r2 : List Nat)
    (h : utf16Units c ++ r1 = utf16Units d ++ r2) : c = d ∧ r1 = r2 := by
  have hc := char_toNat_valid c
  have hd := char_toNat_valid d
  unfold utf16Units at h
  split_ifs at h with h1 h2 h2
  · simp only [List.singleton_append, List.cons.injEq] at h
    exact ⟨char_eq_of_toNat_eq h.1, h.2⟩
  · simp only [List.singleton_append, List.cons_append, List.cons.injEq] at h
    omega
  · simp only [List.singleton_append, List.cons_append, List.cons.injEq] at h
    omega
  · simp only [List.cons_append, List.cons.injEq, List.nil_append] at h
    refine ⟨char_eq_of_toNat_eq ?_, h.2.2⟩
    omega

theorem utf16Units_ne_nil (c : Char) : utf16Units c ≠ [] := by
  unfold utf16Units
  split_ifs <;> simp

theorem utf16_data_inj : ∀ s t : List Char,
    s.flatMap utf16Units = t.flatMap utf16Units → s = t
  | [], [] => fun _ => rfl
  | [], d :: ds => fun h => by
    have := utf16Units_ne_nil d
    simp [List.flatMap_cons] at h
    exact absurd h.1 this
  | c :: cs, [] => fun h => by
    have := utf16Units_ne_nil c
    simp [List.flatMap_cons] at h
    exact absurd h.1 this
  | c :: cs, d :: ds => fun h => by
    rw [List.flatMap_cons, List.flatMap_cons] at h
    obtain ⟨h1, h2⟩ := utf16Units_append_inj c d _ _ h
    rw [h1, utf16_data_inj cs ds h2]

theorem utf16_injective {a b : String} (h : utf16 a = utf16 b) : a = b := by
  have := utf16_data_inj a.data b.data h
  cases a; cases b; simp_all

theorem jsLe_total : IsTotal String jsLe :=
  ⟨fun a b => codeUnitsLe_total (utf16 a) (utf16 b)⟩

theorem jsLe_trans : IsTrans String jsLe :=
  ⟨fun a b c h1 h2 => codeUnitsLe_trans (utf16 a) (utf16 b) (utf16 c) h1 h2⟩

theorem jsLe_antisymm : IsAntisymm String jsLe :=
  ⟨fun a b h1 h2 => utf16_injective (codeUnitsLe_antisymm (utf16 a) (utf16 b) h1 h2)⟩

theorem sorted_insertionSort_jsLe (l : List String) :
    (l.insertionSort jsLe).Pairwise jsLe :=
  haveI := jsLe_total
  haveI := jsLe_trans
  List.sorted_insertionSort jsLe l

theorem eq_of_perm_of_sorted_jsLe {l1 l2 : List String} (hp : l1.Perm l2)
    (h1 : l1.Pairwise jsLe) (h2 : l2.Pairwise jsLe) : l1 = l2 :=
  haveI := jsLe_antisymm
  List.eq_of_perm_of_sorted hp h1 h2

theorem jsLt_of_jsLe_of_ne {a b : String} (h : jsLe a b) (hne : a ≠ b) : jsLt a b := by
  unfold jsLt
  by_contra hcon
  have hba : jsLe b a := by simpa [jsLe] using hcon
  exact hne (jsLe_antisymm.antisymm a b h hba)

/-! ## The keys of the category summary -/

theorem objectKeys_setOwn (o : PlainObject) (key : String) (v : JSValue) :
    objectKeys (setOwn o key v) =
      if key ∈ objectKeys o then objectKeys o else objectKeys o ++ [key] := by
  induction o with
  | nil => simp [setOwn, objectKeys]
  | cons kv rest ih =>
    obtain ⟨k, w⟩ := kv
    by_cases hk : k = key
    · simp [setOwn, objectKeys, hk]
    · have hk' : ¬ key = k := fun h => hk h.symm
      simp only [objectKeys] at ih
      simp only [setOwn, hk, if_false, objectKeys, List.map_cons, ih, List.mem_cons, hk',
        false_or]
      split_ifs <;> simp

theorem objectKeys_set (o : PlainObject) (key : String) (v : JSValue) :
    objectKeys (o.set key v) =
      if key = "__proto__" ∨ key ∈ objectKeys o then objectKeys o
      else objectKeys o ++ [key] := by
  unfold PlainObject.set
  by_cases h : key = "__proto__"
  · simp [h]
  · simp only [h, if_false, false_or]
    exact objectKeys_setOwn o key v

theorem mem_objectKeys_foldl (l : List Expense) :
    ∀ (acc : PlainObject) (c : String),
      c ∈ objectKeys (l.foldl summaryStep acc) ↔
        c ∈ objectKeys acc ∨ (c ≠ "__proto__" ∧ ∃ e ∈ l, e.category = c) := by
  induction l with
  | nil => intro acc c; simp
  | cons a t ih =>
    intro acc c
    rw [List.foldl_cons, ih, summaryStep, objectKeys_set]
    by_cases hp : a.category = "__proto__"
    · simp only [hp, true_or, if_true, List.mem_cons, exists_eq_or_imp]
      constructor
      · rintro (h | ⟨h1, h2⟩)
        · exact Or.inl h
        · exact Or.inr ⟨h1, Or.inr h2⟩
      · rintro (h | ⟨h1, h2 | h2⟩)
        · exact Or.inl h
        · exact absurd h2.symm h1
        · exact Or.inr ⟨h1, h2⟩
    · by_cases hm : a.category ∈ objectKeys acc
      · simp only [hm, or_true, if_true, List.mem_cons, exists_eq_or_imp]
        constructor
        · rintro (h | ⟨h1, h2⟩)
          · exact Or.inl h
          · exact Or.inr ⟨h1, Or.inr h2⟩
        · rintro (h | ⟨h1, h2 | h2⟩)
          · exact Or.inl h
          · exact Or.inl (h2 ▸ hm)
          · exact Or.inr ⟨h1, h2⟩
      · simp only [hp, hm, or_self, if_false, List.mem_append, List.mem_cons, List.not_mem_nil,
          or_false, exists_eq_or_imp]
        constructor
        · rintro ((h | h) | ⟨h1, h2⟩)
          · exact Or.inl h
          · exact Or.inr ⟨h ▸ hp, Or.inl h.symm⟩
          · exact Or.inr ⟨h1, Or.inr h2⟩
        · rintro (h | ⟨h1, h2 | h2⟩)
          · exact Or.inl (Or.inl h)
          · exact Or.inl (Or.inr h2.symm)
          · exact Or.inr ⟨h1, h2⟩

theorem nodup_objectKeys_foldl (l : List Expense) :
    ∀ acc : PlainObject, (objectKeys acc).Nodup → (objectKeys (l.foldl summaryStep acc)).Nodup := by
  induction l with
  | nil => intro acc h; simpa using h
  | cons a t ih =>
    intro acc h
    rw [List.foldl_cons]
    apply ih
    rw [summaryStep, objectKeys_set]
    split_ifs with hc
    · exact h
    · have hm : a.category ∉ objectKeys acc := fun hm => hc (Or.inr hm)
      rw [List.nodup_append]
      exact ⟨h, List.nodup_singleton _, by
        intro x hx hx'
        rw [List.mem_singleton] at hx'
        exact hm (hx' ▸ hx)⟩

theorem mem_objectKeys_summary (expenses : List Expense) (c : String) :
    c ∈ objectKeys (summary expenses) ↔ c ≠ "__proto__" ∧ ∃ e ∈ expenses, e.category = c := by
  rw [summary, mem_objectKeys_foldl]
  simp [objectKeys]

theorem nodup_objectKeys_summary (expenses : List Expense) :
    (objectKeys (summary expenses)).Nodup :=
  nodup_objectKeys_foldl expenses [] (by simp [objectKeys])

theorem mem_categoryNames (expenses : List Expense) (c : String) :
    c ∈ categoryNames expenses ↔ c ≠ "__proto__" ∧ ∃ e ∈ expenses, e.category = c := by
  rw [categoryNames, (List.perm_insertionSort jsLe _).mem_iff, mem_objectKeys_summary]

theorem nodup_categoryNames (expenses : List Expense) : (categoryNames expenses).Nodup :=
  (List.perm_insertionSort jsLe _).nodup_iff.2 (nodup_objectKeys_summary expenses)

/-- Whatever order `Object.keys` lists the names in, the sorted array is the
same. -/
theorem categoryNames_of_keys_perm (expenses : List Expense) (keys : List String)
    (h : keys.Perm (objectKeys (summary expenses))) :
    keys.insertionSort jsLe = categoryNames expenses :=
  eq_of_perm_of_sorted_jsLe
    (((List.perm_insertionSort jsLe keys).trans h).trans
      (List.perm_insertionSort jsLe _).symm)
    (sorted_insertionSort_jsLe keys) (sorted_insertionSort_jsLe _)

/-- C9. For every ledger, the category names over which the summary is
displayed are in strictly ascending order of their UTF-16 code units (each
name strictly before all later ones), and every reordering of the ledger's
records gives the same sequence of names. -/
theorem categoryNames_ascending (expenses : List Expense) :
    (categoryNames expenses).Pairwise jsLt ∧
      ∀ other : List Expense, other.Perm expenses →
        categoryNames other = categoryNames expenses := by
  constructor
  · have hs : (categoryNames expenses).Pairwise jsLe := sorted_insertionSort_jsLe _
    have hn : (categoryNames expenses).Pairwise (fun a b => a ≠ b) := nodup_categoryNames expenses
    exact (hs.and hn).imp (fun h => jsLt_of_jsLe_of_ne h.1 h.2)
  · intro other hp
    apply categoryNames_of_keys_perm
    rw [List.perm_ext_iff_of_nodup (nodup_objectKeys_summary other)
      (nodup_objectKeys_summary expenses)]
    intro c
    rw [mem_objectKeys_summary, mem_objectKeys_summary]
    constructor
    · rintro ⟨h1, e, he, hc⟩
      exact ⟨h1, e, hp.mem_iff.1 he, hc⟩
    · rintro ⟨h1, e, he, hc⟩
      exact ⟨h1, e, hp.mem_iff.2 he, hc⟩

/-- The statement of `filteredExpenses_spec` at the ledger `coffeeBus`. -/
theorem filteredExpenses_spec_witness :
    filteredExpenses coffeeBus "All" = coffeeBus ∧
      (filteredExpenses coffeeBus "Food").map (fun e => e.title) = ["Coffee"] :=
  ⟨(filteredExpenses_spec coffeeBus "All").1 rfl, by decide⟩

/-- The statement of `categoryNames_ascending` at the ledger `coffeeBus` and its reversal. -/
theorem categoryNames_ascending_witness :
    categoryNames coffeeBus = ["Food", "Transport"] ∧
      (categoryNames coffeeBus).Pairwise jsLt ∧
      categoryNames coffeeBus.reverse = categoryNames coffeeBus :=
  ⟨by decide, (categoryNames_ascending coffeeBus).1,
    (categoryNames_ascending coffeeBus).2 coffeeBus.reverse (List.reverse_perm coffeeBus)⟩

/-! ## Additions that do not round -/

theorem bitLengthAux_le : ∀ (fuel n k : Nat), n < 2 ^ k → bitLengthAux fuel n ≤ k
  | 0, _, _ => fun _ => Nat.zero_le _
  | fuel + 1, n, k => fun h => by
    unfold bitLengthAux
    split_ifs with h0
    · exact Nat.zero_le _
    · cases k with
      | zero => simp at h; exact absurd h h0
      | succ k =>
        have : n / 2 < 2 ^ k := by
          rw [Nat.div_lt_iff_lt_mul (by norm_num)]
          rw [pow_succ] at h
          exact h
        have := bitLengthAux_le fuel (n / 2) k this
        omega

theorem bitLengthAux_spec : ∀ (fuel n : Nat), n ≤ fuel →
    n < 2 ^ bitLengthAux fuel n ∧ (n ≠ 0 → 2 ^ (bitLengthAux fuel n - 1) ≤ n)
  | 0, n => fun h => by
    have : n = 0 := by omega
    subst this
    simp [bitLengthAux]
  | fuel + 1, n => fun h => by
    unfold bitLengthAux
    split_ifs with h0
    · subst h0; simp
    · have hle : n / 2 ≤ fuel := by omega
      obtain ⟨h1, h2⟩ := bitLengthAux_spec fuel (n / 2) hle
      constructor
      · rw [pow_succ]
        omega
      · intro _
        simp only [Nat.add_sub_cancel]
        by_cases hz : n / 2 = 0
        · have : bitLengthAux fuel (n / 2) = 0 := by
            rw [hz]; cases fuel <;> simp [bitLengthAux]
          rw [this]
          simp
          omega
        · have h3 := h2 hz
          have h4 : 1 ≤ bitLengthAux fuel (n / 2) := by
            by_contra hcon
            have : bitLengthAux fuel (n / 2) = 0 := by omega
            rw [this] at h1
            simp at h1
            exact hz h1
          have : 2 ^ bitLengthAux fuel (n / 2) = 2 ^ (bitLengthAux fuel (n / 2) - 1) * 2 := by
            rw [← pow_succ]
            congr 1
            omega
          omega

/-- The function `bitLength` is the number of binary digits. -/
theorem bitLength_spec (n : Nat) :
    n < 2 ^ bitLength n ∧ (n ≠ 0 → 2 ^ (bitLength n - 1) ≤ n) :=
  bitLengthAux_spec n n (Nat.le_refl n)

theorem roundMag_exact (n s : Nat) (hdvd : 2 ^ s ∣ n) (hlt : n < 2 ^ (53 + s)) :
    roundMag n = n := by
  have hb : bitLength n ≤ 53 + s := bitLengthAux_le n n (53 + s) hlt
  have he : bitLength n - 53 ≤ s := by omega
  have hd : 2 ^ (bitLength n - 53) ∣ n := (pow_dvd_pow 2 he).trans hdvd
  have hr : n % 2 ^ (bitLength n - 53) = 0 := Nat.mod_eq_zero_of_dvd hd
  have hpos : 0 < 2 ^ (bitLength n - 53) := Nat.pow_pos (by norm_num)
  simp only [roundMag, hr, Nat.mul_zero, hpos, true_or, if_true]
  exact Nat.div_mul_cancel hd

theorem add_exact (a b s : Nat) (hs : s ≤ 2045) (ha : 2 ^ s ∣ a) (hb : 2 ^ s ∣ b)
    (hlt : a + b < 2 ^ (53 + s)) :
    (JSNumber.fin (a : Int)).add (.fin (b : Int)) = .fin ((a + b : Nat) : Int) := by
  have hr : roundMag (a + b) = a + b := roundMag_exact (a + b) s (Nat.dvd_add ha hb) hlt
  have hbig : ¬ (2 ^ 2098 ≤ a + b) := by
    have : (2 : Nat) ^ (53 + s) ≤ 2 ^ 2098 := Nat.pow_le_pow_right (by norm_num) (by omega)
    omega
  have hnat : ((a : Int) + (b : Int)).natAbs = a + b := by
    rw [← Int.natCast_add, Int.natAbs_ofNat]
  have hneg : ¬ ((a : Int) + (b : Int) < 0) := by omega
  simp only [JSNumber.add, JSNumber.ofExact, hnat, hr, hbig, hneg, if_false]

theorem isMultiple_eq {x : JSNumber} {s : Nat} (h : x.isMultiple s = true) :
    x = .fin (x.units : Int) ∧ 2 ^ s ∣ x.units := by
  cases x with
  | fin k =>
    simp only [JSNumber.isMultiple, Bool.and_eq_true, decide_eq_true_eq] at h
    exact ⟨by simp [JSNumber.units, Int.toNat_of_nonneg h.1], Nat.dvd_of_mod_eq_zero h.2⟩
  | nan => simp [JSNumber.isMultiple] at h
  | posInf => simp [JSNumber.isMultiple] at h
  | negInf => simp [JSNumber.isMultiple] at h

theorem foldl_add_exact (s : Nat) (hs : s ≤ 2045) :
    ∀ (l : List Expense) (a : Nat), 2 ^ s ∣ a →
      (∀ e ∈ l, e.amount.isMultiple s = true) → a + ledgerUnits l < 2 ^ (53 + s) →
      l.foldl (fun (sum : JSNumber) (e : Expense) => sum.add e.amount) (.fin (a : Int)) =
        .fin ((a + ledgerUnits l : Nat) : Int) := by
  intro l
  induction l with
  | nil => intro a _ _ _; simp [ledgerUnits]
  | cons x t ih =>
    intro a ha hm hlt
    obtain ⟨hx, hxd⟩ := isMultiple_eq (hm x (List.mem_cons_self x t))
    have hu : ledgerUnits (x :: t) = x.amount.units + ledgerUnits t := by
      simp [ledgerUnits]
    rw [hu] at hlt
    have hstep : (JSNumber.fin (a : Int)).add x.amount =
        .fin ((a + x.amount.units : Nat) : Int) := by
      have := add_exact a x.amount.units s hs ha hxd (by omega)
      rwa [← hx] at this
    rw [List.foldl_cons, hstep,
      ih (a + x.amount.units) (Nat.dvd_add ha hxd)
        (fun e he => hm e (List.mem_cons_of_mem x he)) (by omega), hu, Nat.add_assoc]

theorem totalAmount_exact (s : Nat) (hs : s ≤ 2045) (l : List Expense)
    (hm : ∀ e ∈ l, e.amount.isMultiple s = true) (hlt : ledgerUnits l < 2 ^ (53 + s)) :
    totalAmount l = .fin (ledgerUnits l : Int) := by
  have := foldl_add_exact s hs l 0 (Nat.dvd_zero _) hm (by omega)
  simpa [totalAmount] using this

theorem lookup_setOwn (o : PlainObject) (key : String) (v : JSValue) (c : String) :
    List.lookup c (setOwn o key v) = if c = key then some v else List.lookup c o := by
  induction o with
  | nil =>
    by_cases h : c = key
    · simp [setOwn, List.lookup, h]
    · have hb : (c == key) = false := by simpa using h
      simp [setOwn, List.lookup, h, hb]
  | cons kv rest ih =>
    obtain ⟨k, w⟩ := kv
    by_cases hk : k = key
    · by_cases h : c = key
      · simp [setOwn, hk, List.lookup, h]
      · have hb : (c == key) = false := by simpa using h
        simp [setOwn, hk, List.lookup, h, hb]
    · by_cases hck : c = k
      · have h : ¬ c = key := fun h => hk (hck ▸ h)
        have hb : (c == k) = true := by simpa using hck
        simp [setOwn, hk, List.lookup, h, hb]
      · have hb : (c == k) = false := by simpa using hck
        simp [setOwn, hk, List.lookup, hb, ih]

theorem ledgerUnits_append (l1 l2 : List Expense) :
    ledgerUnits (l1 ++ l2) = ledgerUnits l1 + ledgerUnits l2 := by
  simp [ledgerUnits]

theorem ledgerUnits_dvd (s : Nat) (l : List Expense)
    (hm : ∀ e ∈ l, e.amount.isMultiple s = true) : 2 ^ s ∣ ledgerUnits l := by
  unfold ledgerUnits
  apply List.dvd_sum
  intro x hx
  obtain ⟨e, he, rfl⟩ := List.mem_map.1 hx
  exact (isMultiple_eq (hm e he)).2

theorem categoryUnits_le (l : List Expense) (c : String) :
    categoryUnits l c ≤ ledgerUnits l := by
  induction l with
  | nil => simp [categoryUnits, ledgerUnits]
  | cons x t ih =>
    simp only [categoryUnits, ledgerUnits] at ih ⊢
    by_cases h : x.category = c
    · simp [List.filter_cons, h]
      omega
    · simp [List.filter_cons, h]
      omega

theorem categoryUnits_dvd (s : Nat) (l : List Expense) (c : String)
    (hm : ∀ e ∈ l, e.amount.isMultiple s = true) : 2 ^ s ∣ categoryUnits l c :=
  ledgerUnits_dvd s _ (fun e he => hm e (List.mem_filter.1 he).1)

theorem categoryUnits_append_single (l : List Expense) (x : Expense) (c : String) :
    categoryUnits (l ++ [x]) c =
      categoryUnits l c + (if x.category = c then x.amount.units else 0) := by
  simp only [categoryUnits, List.filter_append, ledgerUnits_append]
  by_cases h : x.category = c
  · simp [List.filter_cons, h, ledgerUnits]
  · simp [List.filter_cons, h, ledgerUnits]

theorem orZero_fin_nat (n : Nat) :
    (JSValue.number (.fin (n : Int))).orZero = .number (.fin (n : Int)) := by
  by_cases h : n = 0
  · subst h; simp [JSValue.orZero, JSValue.truthy]
  · have : ¬ ((n : Int) = 0) := by exact_mod_cast h
    simp [JSValue.orZero, JSValue.truthy, this]

theorem categoryUnits_eq_zero (l : List Expense) (c : String)
    (h : ¬ ∃ e ∈ l, e.category = c) : categoryUnits l c = 0 := by
  have : l.filter (fun e => decide (e.category = c)) = [] := by
    rw [List.filter_eq_nil_iff]
    intro e he
    simpa using fun hc => h ⟨e, he, hc⟩
  simp [categoryUnits, this, ledgerUnits]

theorem proto_mem_inheritedNames : "__proto__" ∈ inheritedNames := by decide

/-- With no rounding and no inherited name in play, the summary holds for
each category that occurs the exact sum of its amounts, and nothing else. -/
theorem lookup_summary (s : Nat) (hs : s ≤ 2045) (l : List Expense) :
    (∀ e ∈ l, e.category ∉ inheritedNames) → (∀ e ∈ l, e.amount.isMultiple s = true) →
      ledgerUnits l < 2 ^ (53 + s) →
      ∀ c, List.lookup c (summary l) =
        if ∃ e ∈ l, e.category = c then some (.number (.fin (categoryUnits l c : Int)))
        else none := by
  induction l using List.reverseRecOn with
  | nil => intro _ _ _ c; simp [summary]
  | append_singleton l x ih =>
    intro hcat hm hlt c
    have hcat' : ∀ e ∈ l, e.category ∉ inheritedNames :=
      fun e he => hcat e (List.mem_append_left _ he)
    have hm' : ∀ e ∈ l, e.amount.isMultiple s = true :=
      fun e he => hm e (List.mem_append_left _ he)
    have hx := hm x (by simp)
    have hxc := hcat x (by simp)
    have hxp : ¬ x.category = "__proto__" := fun h => hxc (h ▸ proto_mem_inheritedNames)
    obtain ⟨hxe, hxd⟩ := isMultiple_eq hx
    rw [ledgerUnits_append] at hlt
    have hxu : ledgerUnits [x] = x.amount.units := by simp [ledgerUnits]
    rw [hxu] at hlt
    have ih' := ih hcat' hm' (by omega)
    have hget : ((summary l).get x.category).orZero =
        .number (.fin (categoryUnits l x.category : Int)) := by
      unfold PlainObject.get
      rw [ih' x.category]
      by_cases hex : ∃ e ∈ l, e.category = x.category
      · simp only [hex, if_true]
        exact orZero_fin_nat _
      · simp only [hex, if_false, hxc]
        rw [categoryUnits_eq_zero l x.category hex]
        rfl
    have hv : (((summary l).get x.category).orZero).add (.number x.amount) =
        .number (.fin ((categoryUnits l x.category + x.amount.units : Nat) : Int)) := by
      rw [hget]
      have hle := categoryUnits_le l x.category
      have := add_exact (categoryUnits l x.category) x.amount.units s hs
        (categoryUnits_dvd s l x.category hm') hxd (by omega)
      rw [← hxe] at this
      simp only [JSValue.add, this]
    have hsum : summary (l ++ [x]) = setOwn (summary l) x.category
        (.number (.fin ((categoryUnits l x.category + x.amount.units : Nat) : Int))) := by
      simp only [summary, List.foldl_append, List.foldl_cons, List.foldl_nil]
      simp only [summaryStep, PlainObject.set, hxp, if_false]
      rw [← hv]
      rfl
    rw [hsum, lookup_setOwn, categoryUnits_append_single]
    by_cases hc : c = x.category
    · subst hc
      have : ∃ e ∈ l ++ [x], e.category = x.category := ⟨x, by simp, rfl⟩
      simp only [this, if_true]
    · have hc' : ¬ x.category = c := fun h => hc h.symm
      rw [ih' c]
      have : (∃ e ∈ l ++ [x], e.category = c) ↔ ∃ e ∈ l, e.category = c := by
        constructor
        · rintro ⟨e, he, hec⟩
          rcases List.mem_append.1 he with he | he
          · exact ⟨e, he, hec⟩
          · rw [List.mem_singleton] at he
            exact absurd (he ▸ hec) hc'
        · rintro ⟨e, he, hec⟩
          exact ⟨e, List.mem_append_left _ he, hec⟩
      simp only [hc, hc', if_false, this, Nat.add_zero]

theorem get_summary (s : Nat) (hs : s ≤ 2045) (l : List Expense)
    (hcat : ∀ e ∈ l, e.category ∉ inheritedNames)
    (hm : ∀ e ∈ l, e.amount.isMultiple s = true) (hlt : ledgerUnits l < 2 ^ (53 + s))
    (c : String) (hc : ∃ e ∈ l, e.category = c) :
    (summary l).get c = .number (.fin (categoryUnits l c : Int)) := by
  unfold PlainObject.get
  rw [lookup_summary s hs l hcat hm hlt c]
  simp only [hc, if_true]

theorem foldl_subtotals_exact (s : Nat) (hs : s ≤ 2045) (l : List Expense)
    (hcat : ∀ e ∈ l, e.category ∉ inheritedNames)
    (hm : ∀ e ∈ l, e.amount.isMultiple s = true) (hlt : ledgerUnits l < 2 ^ (53 + s)) :
    ∀ (cs : List String) (a : Nat), 2 ^ s ∣ a → (∀ c ∈ cs, ∃ e ∈ l, e.category = c) →
      a + (cs.map (categoryUnits l)).sum < 2 ^ (53 + s) →
      cs.foldl (fun (sum : JSValue) (c : String) => sum.add ((summary l).get c))
          (.number (.fin (a : Int))) =
        .number (.fin ((a + (cs.map (categoryUnits l)).sum : Nat) : Int)) := by
  intro cs
  induction cs with
  | nil => intro a _ _ _; simp
  | cons c t ih =>
    intro a ha hex hsum
    simp only [List.map_cons, List.sum_cons] at hsum ⊢
    have hstep : (JSValue.number (.fin (a : Int))).add ((summary l).get c) =
        .number (.fin ((a + categoryUnits l c : Nat) : Int)) := by
      rw [get_summary s hs l hcat hm hlt c (hex c (List.mem_cons_self c t))]
      simp only [JSValue.add]
      rw [add_exact a (categoryUnits l c) s hs ha (categoryUnits_dvd s l c hm) (by omega)]
    rw [List.foldl_cons, hstep,
      ih (a + categoryUnits l c) (Nat.dvd_add ha (categoryUnits_dvd s l c hm))
        (fun c' hc' => hex c' (List.mem_cons_of_mem c hc')) (by omega), Nat.add_assoc]

theorem sum_map_ite_of_not_mem (k : String) (u : Nat) :
    ∀ ks : List String, k ∉ ks → (ks.map (fun c => if k = c then u else 0)).sum = 0
  | [], _ => rfl
  | c :: cs, h => by
    have hkc : ¬ k = c := fun hkc => h (hkc ▸ List.mem_cons_self k cs)
    have := sum_map_ite_of_not_mem k u cs (fun hm => h (List.mem_cons_of_mem c hm))
    simp [hkc, this]

theorem sum_map_ite_of_mem (k : String) (u : Nat) :
    ∀ ks : List String, ks.Nodup → k ∈ ks → (ks.map (fun c => if k = c then u else 0)).sum = u
  | [], _, h => by simp at h
  | c :: cs, hn, h => by
    rw [List.nodup_cons] at hn
    by_cases hkc : k = c
    · subst hkc
      simp [sum_map_ite_of_not_mem k u cs hn.1]
    · have hmem : k ∈ cs := by
        rcases List.mem_cons.1 h with h | h
        · exact absurd h hkc
        · exact h
      simp [hkc, sum_map_ite_of_mem k u cs hn.2 hmem]

theorem categoryUnits_cons (x : Expense) (t : List Expense) (c : String) :
    categoryUnits (x :: t) c =
      (if x.category = c then x.amount.units else 0) + categoryUnits t c := by
  by_cases h : x.category = c
  · simp [categoryUnits, ledgerUnits, List.filter_cons, h]
  · simp [categoryUnits, ledgerUnits, List.filter_cons, h]

/-- Grouping by category loses nothing: over names without repetition that
cover the ledger, the exact sums per category add up to the exact sum. -/
theorem sum_categoryUnits (ks : List String) (hn : ks.Nodup) :
    ∀ l : List Expense, (∀ e ∈ l, e.category ∈ ks) →
      (ks.map (categoryUnits l)).sum = ledgerUnits l := by
  intro l
  induction l with
  | nil =>
    intro _
    have : categoryUnits [] = fun _ => 0 :=
      funext fun c => by simp [categoryUnits, ledgerUnits]
    rw [this]
    simp [ledgerUnits]
  | cons x t ih =>
    intro h
    have hfun : categoryUnits (x :: t) =
        fun c => (if x.category = c then x.amount.units else 0) + categoryUnits t c :=
      funext (categoryUnits_cons x t)
    rw [hfun, List.sum_map_add,
      sum_map_ite_of_mem x.category x.amount.units ks hn (h x (List.mem_cons_self x t)),
      ih (fun e he => h e (List.mem_cons_of_mem x he))]
    simp [ledgerUnits]

theorem subtotalsSum_exact (s : Nat) (hs : s ≤ 2045) (l : List Expense)
    (hcat : ∀ e ∈ l, e.category ∉ inheritedNames)
    (hm : ∀ e ∈ l, e.amount.isMultiple s = true) (hlt : ledgerUnits l < 2 ^ (53 + s)) :
    subtotalsSum l = .number (totalAmount l) := by
  have hcover : ∀ e ∈ l, e.category ∈ categoryNames l := by
    intro e he
    rw [mem_categoryNames]
    exact ⟨fun hp => hcat e he (hp ▸ proto_mem_inheritedNames), e, he, rfl⟩
  have hsum := sum_categoryUnits (categoryNames l) (nodup_categoryNames l) l hcover
  have hfold := foldl_subtotals_exact s hs l hcat hm hlt (categoryNames l) 0 (Nat.dvd_zero _)
    (fun c hc => ((mem_categoryNames l c).1 hc).2) (by omega)
  rw [totalAmount_exact s hs l hm hlt]
  simp only [subtotalsSum, summaryRows, List.foldl_map]
  rw [Nat.zero_add, hsum] at hfold
  exact hfold

/-- C7, the claim as stated fails: for the amounts 0.1 (Food), 0.2
(Transport) and 0.4 (Food) the total is 0.7000000000000001
(`6305039478318695 * 2^-53`) while the subtotals 0.5 and 0.2 sum to 0.7
(`3152519739159347 * 2^-52`). -/
theorem subtotalsSum_tenths :
    summaryRows tenths =
        [("Food", .number (dyadic 1 1073)), ("Transport", .number (dyadic 3602879701896397 1020))] ∧
      subtotalsSum tenths = .number (dyadic 3152519739159347 1022) ∧
      totalAmount tenths = dyadic 6305039478318695 1021 ∧
      subtotalsSum tenths ≠ .number (totalAmount tenths) := by
  decide!

/-- C7, amended. For every ledger none of whose categories is a name that
objects inherit from `Object.prototype`: a category is a key of the summary
exactly when at least one record has it; and when all amounts are
non-negative multiples of one power of two and their exact sum is below
`2^53` times that power, so that no addition rounds, the subtotals sum to
the total `updateTotals` computes. -/
theorem summary_keys_and_sum (expenses : List Expense)
    (hcat : ∀ e ∈ expenses, e.category ∉ inheritedNames) :
    (∀ c, c ∈ objectKeys (summary expenses) ↔ ∃ e ∈ expenses, e.category = c) ∧
      (∀ s, s ≤ 2045 → (∀ e ∈ expenses, e.amount.isMultiple s = true) →
        ledgerUnits expenses < 2 ^ (53 + s) →
        subtotalsSum expenses = .number (totalAmount expenses)) := by
  refine ⟨?_, ?_⟩
  · intro c
    rw [mem_objectKeys_summary]
    constructor
    · exact fun h => h.2
    · rintro ⟨e, he, hc⟩
      exact ⟨fun hp => hcat e he (by rw [hc, hp]; exact proto_mem_inheritedNames), e, he, hc⟩
  · intro s hs hm hlt
    exact subtotalsSum_exact s hs expenses hcat hm hlt

/-- The statement of `summary_keys_and_sum` at the ledger `coffeeBus`: amounts in half units, total 190.5. -/
theorem summary_keys_and_sum_witness :
    (∀ e ∈ coffeeBus, e.category ∉ inheritedNames) ∧
      (∀ e ∈ coffeeBus, e.amount.isMultiple 1073 = true) ∧
      ledgerUnits coffeeBus < 2 ^ (53 + 1073) ∧
      subtotalsSum coffeeBus = .number (totalAmount coffeeBus) ∧
      totalAmount coffeeBus = dyadic 381 1073 :=
  ⟨by decide, by decide!, by decide!,
    (summary_keys_and_sum coffeeBus (by decide)).2 1073 (by decide) (by decide!) (by decide!),
    by decide!⟩

/-- The name `__proto__` never becomes a key of the summary, although a
record has it as its category. -/
theorem summary_proto_not_a_key :
    (∃ e ∈ protoLedger, e.category = "__proto__") ∧ objectKeys (summary protoLedger) = [] := by
  decide

/-- Under an inherited name such as `constructor` the summary holds a string,
not a sum. -/
theorem summary_constructor_not_a_number :
    summaryRows constructorLedger = [("constructor", .string)] := by
  decide

end ExpenseTracker
